import Mathlib

/-!
# SODPEST `filter-sparql-portals.mjs` — shallow embedding and verification

This file embeds the core of `filter-sparql-portals.mjs` (candidate model,
response classifiers, endpoint prober, verification engine, selection policy)
as executable Lean definitions and proves/refutes the frozen claims about it.

Modelling conventions:
* JS strings are modelled as Lean `String`/`List Char` (JS `.slice`/`.charAt`
  index UTF-16 units; all relevant literals are ASCII, where the two agree).
* `JSON.parse`-based classification (`looksLikeJsonAsk`) calls a JS builtin,
  so it is carried as an abstract parameter `looksLikeJsonAsk : String → Bool`.
* Network I/O (`fetch`) is modelled by passing the response of each request
  explicitly (`FetchRes`); `fetchText` in the source never throws and returns
  `{res: null, ct: "", text: ""}` on a transport error, which is modelled by
  `ok := false` (the probes only inspect `!res || !res.ok` through `ok`).
* The concurrent worker pool is modelled twice: an interleaving scheduler over
  the shared cursor (claims/termination, `stepWorker`), and a completion-order
  parameter (a permutation of the task indices) for the per-record verified-set
  accumulation (`runTasks`).
-/

namespace Sodpest

/-- Provenance tag of a candidate (`source: "explicit" | "guessed"`). -/
inductive Source where
  | explicit
  | guessed
deriving DecidableEq, Repr

/-- Probe strategy that confirmed an endpoint
(`"ask_get" | "ask_post" | "service_description"`). -/
inductive Mode where
  | ask_get
  | ask_post
  | service_description
deriving DecidableEq, Repr

/-- A candidate endpoint URL with its provenance (`{url, source}`). -/
structure Cand where
  url : String
  source : Source
deriving DecidableEq, Repr

/-- A flattened (record, candidate) task (`{portalIndex, url, source}`),
as built by `verifyCandidatesByCandidate`. -/
structure Task where
  portalIndex : Nat
  url : String
  source : Source
deriving DecidableEq, Repr

/-- A verified endpoint entry (`{url, source, mode}`) as stored in a record's
verified map. -/
structure VEndpoint where
  url : String
  source : Source
  mode : Mode
deriving DecidableEq, Repr

/-- The external attributes of a portal record that `projectOutput` copies into
an output row.  Dynamic JS values that may be absent are modelled as `Option`
(`?? null` / `typeof ... === "number"` normalisation is absorbed into the
typed fields). -/
structure RawPortal where
  name : Option String := none
  nameEn : Option String := none
  inCountry : Option String := none
  inCountryEn : Option String := none
  inFederalState : Option String := none
  inFederalStateEn : Option String := none
  inCity : Option String := none
  inCityEn : Option String := none
  url : Option String := none
  datasetsCount : Option Int := none
  portalSoftware : Option String := none
  levelInEu : Option Int := none
deriving DecidableEq, Repr

/-- The projected output attributes (`projectOutput`). -/
structure ProjOut where
  name : Option String
  nameEn : Option String
  inCountry : Option String
  inCountryEn : Option String
  inFederalState : Option String
  inFederalStateEn : Option String
  inCity : Option String
  inCityEn : Option String
  url : Option String
  datasetsCount : Option Int
  portalSoftware : Option String
  levelInEu : Option Int
deriving DecidableEq, Repr

/-- `projectOutput(prepared)`: copy the display attributes of the raw record. -/
def projectOutput (p : RawPortal) : ProjOut :=
  { name := p.name
    nameEn := p.nameEn
    inCountry := p.inCountry
    inCountryEn := p.inCountryEn
    inFederalState := p.inFederalState
    inFederalStateEn := p.inFederalStateEn
    inCity := p.inCity
    inCityEn := p.inCityEn
    url := p.url
    datasetsCount := p.datasetsCount
    portalSoftware := p.portalSoftware
    levelInEu := p.levelInEu }

/-- A prepared record (`preparePortal`): the raw portal plus its derived
candidate list. -/
structure Prepared where
  raw : RawPortal
  sparqlCandidates : List Cand
deriving DecidableEq, Repr

/-- Output row of the derivation-only (no `--check`) branch. -/
structure DeriveRow where
  proj : ProjOut
  sparqlEndpoint : Option String
  sparqlGuessed : Option Bool
  sparqlCandidates : List Cand
deriving DecidableEq, Repr

/-- Output row of the verification (`--check`) branch.  The JS object stores a
string in `sparqlEndpoint`; it is typed `Option String` here so that the
claim "null is unreachable" is statable rather than enforced by the type. -/
structure VerifyRow where
  proj : ProjOut
  sparqlEndpoint : Option String
  sparqlGuessed : Option Bool
  sparqlVerified : Bool
  sparqlVerifiedBy : Mode
  sparqlEndpointsVerified : List String
  sparqlEndpointsVerifiedMeta : List VEndpoint
deriving DecidableEq, Repr

/-! ## String utilities (JS builtins used by the classifiers) -/

/-- JS `hay.includes(needle)`. -/
def includes (hay needle : String) : Bool :=
  decide (needle.toList <:+: hay.toList)

/-- JS `s.toLowerCase()` as a character list (ASCII case mapping; all
classifier patterns are ASCII). -/
def lowerChars (s : String) : List Char :=
  s.toList.map Char.toLower

/-- JS `hay.includes(needle)` on a lowered character list. -/
def includesL (hay : List Char) (needle : String) : Bool :=
  decide (needle.toList <:+: hay)

/-- JS `s.trim()` on a character list: drop leading and trailing whitespace.
(Structural, so that concrete probes evaluate inside the kernel.) -/
def trimChars (l : List Char) : List Char :=
  ((l.dropWhile Char.isWhitespace).reverse.dropWhile Char.isWhitespace).reverse

/-! ## Response classifiers -/

/-- `looksLikeHtml(contentType, text)`: content-type contains `text/html`, or
the trimmed body's first 500 characters start with a doctype/html tag
(case-insensitive). -/
def looksLikeHtml (contentType text : String) : Bool :=
  let ct := lowerChars contentType
  if includesL ct "text/html" then true
  else
    let t := ((trimChars text.toList).take 500).map Char.toLower
    if "<!doctype html".toList.isPrefixOf t then true
    else if "<html".toList.isPrefixOf t then true
    else false

/-! ### The XML ASK-acknowledgment regex

The source tests the first 200000 characters of the body against

  `/<sparql\b[^>]*>[\s\S]*<boolean>(true|false)<\/boolean>[\s\S]*<\/sparql>/i`

The matcher below implements exactly this search; `XmlAskShaped` below states
the regex's language as an existential decomposition, and the two are proved
equivalent (`looksLikeXmlAsk_iff`). -/

/-- JS regex `\w` word-character class (`[A-Za-z0-9_]`). -/
def wordChar (c : Char) : Bool :=
  c.isAlphanum || c = '_'

/-- Match a literal pattern at the head of the input; return the remainder. -/
def matchLit : List Char → List Char → Option (List Char)
  | [], l => some l
  | _ :: _, [] => none
  | c :: cs, d :: ds => if c = d then matchLit cs ds else none

/-- The remainders after every occurrence of `pat` in `l`, in order of the
occurrence's start position. -/
def remaindersAfter (pat : List Char) : List Char → List (List Char)
  | [] =>
    match matchLit pat [] with
    | some r => [r]
    | none => []
  | l@(_ :: rest) =>
    (match matchLit pat l with
     | some r => [r]
     | none => []) ++ remaindersAfter pat rest

/-- Regex fragment `[^>]*>`: consume up to and including the first `>`. -/
def matchAttrs : List Char → Option (List Char)
  | [] => none
  | c :: cs => if c = '>' then some cs else matchAttrs cs

/-- The word-boundary `\b` after `<sparql`: the next input character (if any)
is not a word character. -/
def boundaryOk : List Char → Bool
  | [] => true
  | c :: _ => !wordChar c

/-- `looksLikeXmlAsk(text)`: the first 200000 characters match the ASK-result
regex (case-insensitively, via lowering both sides; the pattern is ASCII). -/
def looksLikeXmlAsk (text : String) : Bool :=
  let t := (text.toList.take 200000).map Char.toLower
  (remaindersAfter "<sparql".toList t).any fun r =>
    boundaryOk r &&
    match matchAttrs r with
    | some q =>
      ((remaindersAfter "<boolean>true</boolean>".toList q).any fun s =>
        decide ("</sparql>".toList <:+: s))
      || ((remaindersAfter "<boolean>false</boolean>".toList q).any fun s =>
        decide ("</sparql>".toList <:+: s))
    | none => false

/-- `isRdfContentType(ct)`: one of the seven structured-data MIME types. -/
def isRdfContentType (ct : String) : Bool :=
  let s := lowerChars ct
  includesL s "text/turtle"
  || includesL s "application/rdf+xml"
  || includesL s "application/ld+json"
  || includesL s "application/n-triples"
  || includesL s "application/n-quads"
  || includesL s "text/n3"
  || includesL s "application/trig"

/-- `looksLikeServiceDescription(text)`: the first 300000 characters (lowered)
contain one of the four service-description markers. -/
def looksLikeServiceDescription (text : String) : Bool :=
  let t := (text.toList.take 300000).map Char.toLower
  if includesL t "http://www.w3.org/ns/sparql-service-description#" then true
  else if includesL t "sd:service" then true
  else if includesL t "sd:endpoint" then true
  else if includesL t "void:sparqlendpoint" then true
  else false

/-! ## Endpoint prober

One HTTP exchange is modelled by the value `fetchText` produces: `ok` is
`res !== null && res.ok`, `ct` the content-type header, `text` the body. -/

/-- The observable result of one `fetchText` call. -/
structure FetchRes where
  ok : Bool
  ct : String
  text : String
deriving DecidableEq, Repr

section Prober

variable (looksLikeJsonAsk : String → Bool)

/-- `tryAskGet(endpoint, ask, timeoutMs)` given the response `r` of its GET
request.  `urlOk` models whether `new URL(endpoint)` succeeds: the whole body
is wrapped in `try/catch`, so a URL-parse failure yields `{ok: false}`.
`looksLikeJsonAsk` is the `JSON.parse`-based classifier (a JS builtin),
carried as a parameter. -/
def tryAskGet (urlOk : Bool) (r : FetchRes) : Bool :=
  if !urlOk then false
  else if !r.ok then false
  else if looksLikeHtml r.ct r.text then false
  else
    let cts := lowerChars r.ct
    if includesL cts "application/sparql-results+json" && looksLikeJsonAsk r.text then true
    else if includesL cts "application/sparql-results+xml" && looksLikeXmlAsk r.text then true
    else if looksLikeJsonAsk r.text then true
    else if looksLikeXmlAsk r.text then true
    else false

/-- `tryAskPost(endpoint, ask, timeoutMs)` given the response `r` of its POST
request (same response checks as GET; no URL parsing step). -/
def tryAskPost (r : FetchRes) : Bool :=
  if !r.ok then false
  else if looksLikeHtml r.ct r.text then false
  else
    let cts := lowerChars r.ct
    if includesL cts "application/sparql-results+json" && looksLikeJsonAsk r.text then true
    else if includesL cts "application/sparql-results+xml" && looksLikeXmlAsk r.text then true
    else if looksLikeJsonAsk r.text then true
    else if looksLikeXmlAsk r.text then true
    else false

/-- `tryServiceDescription(endpoint, timeoutMs)` given the response `r`. -/
def tryServiceDescription (r : FetchRes) : Bool :=
  if !r.ok then false
  else if !isRdfContentType r.ct then false
  else if looksLikeHtml r.ct r.text then false
  else if !looksLikeServiceDescription r.text then false
  else true

/-- The prober's outcome (`{ok, mode}`). -/
structure ProbeResult where
  ok : Bool
  mode : Option Mode
deriving DecidableEq, Repr

/-- `validateSparqlEndpoint(endpoint, timeoutMs)`: try GET-ask, then POST-ask,
then service description, short-circuiting on the first success.  `urlOk` and
the three `FetchRes` values describe the candidate URL's parsability and the
responses the three requests would receive. -/
def validateSparqlEndpoint (urlOk : Bool) (g p s : FetchRes) : ProbeResult :=
  if tryAskGet looksLikeJsonAsk urlOk g then { ok := true, mode := some Mode.ask_get }
  else if tryAskPost looksLikeJsonAsk p then { ok := true, mode := some Mode.ask_post }
  else if tryServiceDescription s then { ok := true, mode := some Mode.service_description }
  else { ok := false, mode := none }

end Prober

/-! ## Selection policy -/

/-- `choosePreferred(candidates)`: the first explicit candidate if any,
otherwise the first candidate, otherwise null. -/
def choosePreferred (candidates : List Cand) : Option Cand :=
  match candidates.find? fun c => c.source == Source.explicit with
  | some exp => some exp
  | none => candidates.head?

/-! ## Candidate de-duplication (`uniqueCandidates`) -/

/-- Body of `uniqueCandidates`: walk the list keeping the first occurrence of
each (trimmed) URL; a candidate with a falsy (empty) `url` is skipped. -/
def uniqueCandidatesAux : List Cand → List String → List Cand
  | [], _ => []
  | x :: xs, seen =>
    if x.url = "" then uniqueCandidatesAux xs seen
    else
      let u := x.url.trim
      if u ∈ seen then uniqueCandidatesAux xs seen
      else { url := u, source := x.source } :: uniqueCandidatesAux xs (u :: seen)

/-- `uniqueCandidates(arr)`: first occurrence of each URL wins. -/
def uniqueCandidates (arr : List Cand) : List Cand :=
  uniqueCandidatesAux arr []

/-! ## Verification engine (`verifyCandidatesByCandidate`)

The engine flattens all (record index, candidate) pairs into `tasks`, probes
each task's URL, and accumulates per-record verified entries keyed by URL with
first-success-wins semantics.  A fixed assignment of probe outcomes is an
`outcome : String → Option Mode` function (`validateSparqlEndpoint` is called
on the task's URL only); a completion ordering of the worker pool is a list of
task indices (for a full run, a permutation of `List.range tasks.length`). -/

/-- Task-list construction (the first loop of `verifyCandidatesByCandidate`). -/
def buildTasks (items : List Prepared) : List Task :=
  (List.range items.length).flatMap fun i =>
    match items[i]? with
    | some it => it.sparqlCandidates.map fun c => { portalIndex := i, url := c.url, source := c.source }
    | none => []

/-- Insertion into a record's verified map (`if (!m.has(t.url)) m.set(...)`):
insert-if-absent keyed by `url`; JS `Map` insertion order is append order. -/
def insertVerified (m : List VEndpoint) (v : VEndpoint) : List VEndpoint :=
  if m.any fun e => e.url == v.url then m else m ++ [v]

/-- One completed task `j`: on probe success, insert the verified entry into
the task's record's map. -/
def stepTask (tasks : List Task) (outcome : String → Option Mode)
    (vm : Nat → List VEndpoint) (j : Nat) : Nat → List VEndpoint :=
  match tasks[j]? with
  | none => vm
  | some t =>
    match outcome t.url with
    | none => vm
    | some mo => fun i =>
        if i = t.portalIndex then insertVerified (vm i) { url := t.url, source := t.source, mode := mo }
        else vm i

/-- The verified maps after the pool completes the tasks in completion order
`order` (starting from empty maps). -/
def runTasks (tasks : List Task) (outcome : String → Option Mode)
    (order : List Nat) : Nat → List VEndpoint :=
  order.foldl (stepTask tasks outcome) fun _ => []

/-- Explicit-URL set of a record (`explicitByPortal`): the distinct URLs of its
explicit-source candidates. -/
def explicitUrls (item : Prepared) : List String :=
  ((item.sparqlCandidates.filter fun c => c.source == Source.explicit).map fun c => c.url).dedup

/-- `hasExplicitAny`: the record's explicit-URL set is non-empty. -/
def hasExplicitAny (item : Prepared) : Bool :=
  !(explicitUrls item).isEmpty

/-- The chosen endpoint of a non-empty verified list
(`verified.find(v => v.source === "explicit") ?? verified[0]`). -/
def chooseVerified (v : VEndpoint) (vs : List VEndpoint) : VEndpoint :=
  ((v :: vs).find? fun x => x.source == Source.explicit).getD v

/-- The output row the result-assembly loop produces for record `i` (or `none`
when the loop `continue`s past it). -/
def rowFor (items : List Prepared) (strict : Bool) (vm : Nat → List VEndpoint)
    (i : Nat) : Option VerifyRow :=
  match items[i]? with
  | none => none
  | some item =>
    match vm i with
    | [] => none
    | v :: vs =>
      if strict && !hasExplicitAny item then none
      else
        some
          { proj := projectOutput item.raw
            sparqlEndpoint := some (chooseVerified v vs).url
            sparqlGuessed := some ((chooseVerified v vs).source != Source.explicit)
            sparqlVerified := true
            sparqlVerifiedBy := (chooseVerified v vs).mode
            sparqlEndpointsVerified := (v :: vs).map fun x => x.url
            sparqlEndpointsVerifiedMeta := v :: vs }

/-- Result assembly: one row per record that has a non-empty verified map and
passes the strict gate. -/
def assembleRows (items : List Prepared) (strict : Bool)
    (vm : Nat → List VEndpoint) : List VerifyRow :=
  (List.range items.length).filterMap (rowFor items strict vm)

/-- `verifyCandidatesByCandidate(items, {timeoutMs, concurrency, strict})` for
a fixed outcome assignment and completion ordering. -/
def verifyCandidatesByCandidate (items : List Prepared) (strict : Bool)
    (outcome : String → Option Mode) (order : List Nat) : List VerifyRow :=
  assembleRows items strict (runTasks (buildTasks items) outcome order)

/-! ## Derivation-only branch (no `--check`) -/

/-- The non-`check` output loop: skip candidate-less records, apply the strict
gate, choose a preferred candidate, emit the row. -/
def filterDerive (prepared : List Prepared) (strict : Bool) : List DeriveRow :=
  prepared.filterMap fun p =>
    if p.sparqlCandidates.isEmpty then none
    else if strict && !(p.sparqlCandidates.any fun c => c.source == Source.explicit) then none
    else
      let chosen := choosePreferred p.sparqlCandidates
      some
        { proj := projectOutput p.raw
          sparqlEndpoint := chosen.map fun c => c.url
          sparqlGuessed := chosen.map fun c => c.source != Source.explicit
          sparqlCandidates := p.sparqlCandidates }

/-! ## Exception propagation model

The worker body

```
const worker = async () => {
  while (true) {
    const myIndex = cursor++;
    if (myIndex >= tasks.length) break;
    const t = tasks[myIndex];
    const res = await validateSparqlEndpoint(t.url, timeoutMs);
    ...
  }
};
...
await Promise.all(runners);
```

contains no `try/catch`: a rejection from `validateSparqlEndpoint` rejects the
worker's promise and hence `Promise.all`.  `probeE` models a probe that may
throw (`Except.error ()`); a throwing probe aborts the whole engine run. -/

/-- One completed task in the exception-aware engine: a probe error propagates
(no handler at the worker boundary). -/
def stepTaskE (tasks : List Task) (probeE : String → Except Unit (Option Mode))
    (acc : Except Unit (Nat → List VEndpoint)) (j : Nat) :
    Except Unit (Nat → List VEndpoint) :=
  match acc with
  | Except.error e => Except.error e
  | Except.ok vm =>
    match tasks[j]? with
    | none => Except.ok vm
    | some t =>
      match probeE t.url with
      | Except.error e => Except.error e
      | Except.ok none => Except.ok vm
      | Except.ok (some mo) => Except.ok fun i =>
          if i = t.portalIndex then insertVerified (vm i) { url := t.url, source := t.source, mode := mo }
          else vm i

/-- The engine under possibly-throwing probes. -/
def runTasksE (tasks : List Task) (probeE : String → Except Unit (Option Mode))
    (order : List Nat) : Except Unit (Nat → List VEndpoint) :=
  order.foldl (stepTaskE tasks probeE) (Except.ok fun _ => [])

/-! ## Worker-pool scheduler (shared cursor)

The shared mutable state is the cursor; `myIndex = cursor++` is a single
synchronous (hence atomic) step of one worker, and workers interleave only at
their `await` suspension points.  A schedule is the sequence of worker ids
performing their next claim step. -/

/-- One worker's bookkeeping: the task indices it has claimed, and whether it
is still running (it stops after claiming an index `≥ tasks.length`). -/
structure WorkerState where
  claimed : List Nat
  running : Bool
deriving DecidableEq, Repr

/-- The pool: the shared cursor and the per-worker states. -/
structure PoolState where
  cursor : Nat
  workers : List WorkerState
deriving DecidableEq, Repr

/-- Initial pool of `k` workers. -/
def initPool (k : Nat) : PoolState :=
  { cursor := 0, workers := List.replicate k { claimed := [], running := true } }

/-- One atomic claim step of worker `w` over a task list of length `n`:
`myIndex = cursor++`, then either break (index out of range) or claim it. -/
def stepWorker (n : Nat) (s : PoolState) (w : Nat) : PoolState :=
  match s.workers[w]? with
  | none => s
  | some ws =>
    if ws.running then
      let i := s.cursor
      if n ≤ i then
        { cursor := i + 1, workers := s.workers.set w { ws with running := false } }
      else
        { cursor := i + 1, workers := s.workers.set w { ws with claimed := ws.claimed ++ [i] } }
    else s

/-- Run the pool of `k` workers under a schedule of claim steps. -/
def runPool (n k : Nat) (sched : List Nat) : PoolState :=
  sched.foldl (stepWorker n) (initPool k)

/-- All workers have exited their loop. -/
def allDone (s : PoolState) : Prop :=
  ∀ ws ∈ s.workers, ws.running = false

instance (s : PoolState) : Decidable (allDone s) :=
  inferInstanceAs (Decidable (∀ ws ∈ s.workers, ws.running = false))

/-- The claimed task indices across all workers, in worker order. -/
def allClaims (s : PoolState) : List Nat :=
  (s.workers.map fun ws => ws.claimed).flatten

/-- Pool invariant: the worker count is stable, the claims across all workers
are exactly the task indices below `min cursor n` with no duplicates, and a
worker only stops once the cursor has passed the end of the task list. -/
def PoolInv (n k : Nat) (s : PoolState) : Prop :=
  s.workers.length = k
  ∧ (allClaims s).Nodup
  ∧ (∀ i, i ∈ allClaims s ↔ i < min s.cursor n)
  ∧ (∀ ws ∈ s.workers, ws.running = false → n ≤ s.cursor)

/-! ## The language of the ASK-result regex -/

/-- The language of
`/<sparql\b[^>]*>[\s\S]*<boolean>(true|false)<\/boolean>[\s\S]*<\/sparql>/`
as an existential decomposition: somewhere in `t` there is `<sparql`, followed
by a non-word character (the `\b`), attribute characters without `>`, a `>`,
then (anything, `<boolean>true|false</boolean>`, anything, `</sparql>`). -/
def XmlAskShaped (t : List Char) : Prop :=
  ∃ pre attrs mid1 b mid2 post,
    t = pre ++ "<sparql".toList ++ attrs ++ '>' ::
      (mid1 ++ "<boolean>".toList ++ b ++ "</boolean>".toList ++
       mid2 ++ "</sparql>".toList ++ post)
    ∧ (∀ c ∈ attrs, c ≠ '>')
    ∧ (b = "true".toList ∨ b = "false".toList)
    ∧ (∀ c, attrs.head? = some c → wordChar c = false)

/-! ## Concrete example inputs -/

/-- One record with two guessed candidates (used to exhibit completion-order
sensitivity of the chosen endpoint). -/
def exampleItems : List Prepared :=
  [{ raw := {},
     sparqlCandidates :=
       [{ url := "https://a.org/sparql", source := Source.guessed },
        { url := "https://a.org/query", source := Source.guessed }] }]

/-- Probe outcomes under which both example candidates verify. -/
def exampleOutcome : String → Option Mode :=
  fun _ => some Mode.ask_get

/-- Two tasks of one record (used to exhibit exception propagation). -/
def exampleTasksE : List Task :=
  [{ portalIndex := 0, url := "u1", source := Source.guessed },
   { portalIndex := 0, url := "u2", source := Source.guessed }]

/-- A probe that throws on `u1` and succeeds on `u2`. -/
def exampleProbeE : String → Except Unit (Option Mode) :=
  fun u => if u = "u1" then Except.error () else Except.ok (some Mode.ask_get)

/-- The outcome assignment the claim expects the engine to salvage: `u1`
failed, `u2` verified. -/
def exampleOutcomeE : String → Option Mode :=
  fun u => if u = "u1" then none else some Mode.ask_get

/-! # Theorems -/

/-! ## Selection policy -/

/-- `choosePreferred` returns `none` exactly on the empty list. -/
lemma choosePreferred_eq_none_iff (candidates : List Cand) :
    choosePreferred candidates = none ↔ candidates = [] := by
  cases hf : candidates.find? fun c => c.source == Source.explicit with
  | some e =>
    simp only [choosePreferred, hf]
    constructor
    · intro h; cases h
    · rintro rfl; simp at hf
  | none =>
    simp [choosePreferred, hf, List.head?_eq_none_iff]

/-- C6: `choosePreferred` returns `none` iff the candidate set is empty; on a
set with an explicit entry it returns the first explicit entry (hence always
an explicit one); on a set with no explicit entry it returns the first
entry. -/
theorem choosePreferred_spec (candidates : List Cand) :
    (choosePreferred candidates = none ↔ candidates = [])
    ∧ (∀ e pre post, candidates = pre ++ e :: post → e.source = Source.explicit →
        (∀ x ∈ pre, x.source ≠ Source.explicit) →
        choosePreferred candidates = some e)
    ∧ ((∃ c ∈ candidates, c.source = Source.explicit) →
        ∃ e, choosePreferred candidates = some e ∧ e.source = Source.explicit)
    ∧ ((∀ c ∈ candidates, c.source ≠ Source.explicit) →
        choosePreferred candidates = candidates.head?) := by
  refine ⟨choosePreferred_eq_none_iff candidates, ?_, ?_, ?_⟩
  · intro e pre post hdec he hpre
    have hf : candidates.find? (fun c => c.source == Source.explicit) = some e := by
      rw [List.find?_eq_some]
      refine ⟨by simp [he], pre, post, hdec, ?_⟩
      intro a ha
      simp [hpre a ha]
    simp [choosePreferred, hf]
  · rintro ⟨c, hc, hce⟩
    cases hf : candidates.find? fun x => x.source == Source.explicit with
    | some e =>
      refine ⟨e, by simp [choosePreferred, hf], ?_⟩
      have := List.find?_some hf
      simpa using this
    | none =>
      have := List.find?_eq_none.1 hf c hc
      simp [hce] at this
  · intro hnone
    have hf : candidates.find? (fun c => c.source == Source.explicit) = none := by
      rw [List.find?_eq_none]
      intro x hx
      simp [hnone x hx]
    simp [choosePreferred, hf]

/-- Witness for `choosePreferred_spec` at a concrete candidate list: the first
explicit entry is chosen past a non-explicit one. -/
theorem choosePreferred_spec_witness :
    choosePreferred
      [{ url := "u1", source := Source.guessed },
       { url := "u2", source := Source.explicit },
       { url := "u3", source := Source.explicit }] =
      some { url := "u2", source := Source.explicit } :=
  (choosePreferred_spec _).2.1
    { url := "u2", source := Source.explicit }
    [{ url := "u1", source := Source.guessed }]
    [{ url := "u3", source := Source.explicit }]
    (by decide) (by decide) (by decide)

/-! ## Endpoint prober -/

/-- C2: `validateSparqlEndpoint` tries GET-ask, POST-ask, service description
in this fixed order, short-circuits on the first success with the matching
mode, and returns `{ok: false, mode: null}` iff all three strategies fail. -/
theorem validateSparqlEndpoint_spec (looksLikeJsonAsk : String → Bool)
    (urlOk : Bool) (g p s : FetchRes) :
    (tryAskGet looksLikeJsonAsk urlOk g = true →
      validateSparqlEndpoint looksLikeJsonAsk urlOk g p s =
        { ok := true, mode := some Mode.ask_get })
    ∧ (tryAskGet looksLikeJsonAsk urlOk g = false →
        tryAskPost looksLikeJsonAsk p = true →
        validateSparqlEndpoint looksLikeJsonAsk urlOk g p s =
          { ok := true, mode := some Mode.ask_post })
    ∧ (tryAskGet looksLikeJsonAsk urlOk g = false →
        tryAskPost looksLikeJsonAsk p = false →
        tryServiceDescription s = true →
        validateSparqlEndpoint looksLikeJsonAsk urlOk g p s =
          { ok := true, mode := some Mode.service_description })
    ∧ (validateSparqlEndpoint looksLikeJsonAsk urlOk g p s =
          { ok := false, mode := none } ↔
        tryAskGet looksLikeJsonAsk urlOk g = false ∧
        tryAskPost looksLikeJsonAsk p = false ∧
        tryServiceDescription s = false) := by
  unfold validateSparqlEndpoint
  cases hg : tryAskGet looksLikeJsonAsk urlOk g <;>
    cases hp : tryAskPost looksLikeJsonAsk p <;>
    cases hs : tryServiceDescription s <;>
    simp

/-- Witness for `validateSparqlEndpoint_spec`: all three strategies fail on an
errored response, and the failure case of the iff fires. -/
theorem validateSparqlEndpoint_spec_witness :
    validateSparqlEndpoint (fun _ => false) false
      { ok := false, ct := "", text := "" }
      { ok := false, ct := "", text := "" }
      { ok := false, ct := "", text := "" } = { ok := false, mode := none } :=
  (validateSparqlEndpoint_spec (fun _ => false) false _ _ _).2.2.2.2
    ⟨by decide, by decide, by decide⟩

/-! ## HTML rejection -/

/-- Mapping a function over both sides preserves list containment. -/
lemma isInfix_map {l₁ l₂ : List Char} (f : Char → Char) (h : l₁ <:+: l₂) :
    l₁.map f <:+: l₂.map f := by
  obtain ⟨s, t, rfl⟩ := h
  exact ⟨s.map f, t.map f, by simp⟩

/-- C3: any response whose content-type contains `text/html` is classified as
HTML-like, and both acknowledgment probes reject it, for every body (in
particular for a body that the JSON boolean-acknowledgment classifier
accepts). -/
theorem htmlRejection_spec (ct text : String) (looksLikeJsonAsk : String → Bool)
    (urlOk okFlag : Bool) (h : "text/html".toList <:+: ct.toList) :
    looksLikeHtml ct text = true
    ∧ tryAskGet looksLikeJsonAsk urlOk { ok := okFlag, ct := ct, text := text } = false
    ∧ tryAskPost looksLikeJsonAsk { ok := okFlag, ct := ct, text := text } = false := by
  have hpat : ("text/html".toList.map Char.toLower) = "text/html".toList := by decide
  have hlow : "text/html".toList <:+: lowerChars ct := by
    have := isInfix_map Char.toLower h
    rwa [hpat] at this
  have hhtml : looksLikeHtml ct text = true := by
    simp only [looksLikeHtml, includesL]
    rw [if_pos (by simpa using hlow)]
  refine ⟨hhtml, ?_, ?_⟩
  · cases urlOk <;> cases okFlag <;> simp [tryAskGet, hhtml]
  · cases okFlag <;> simp [tryAskPost, hhtml]

/-- Witness for `htmlRejection_spec`: content-type `text/html` with a body
that passes the boolean-JSON check is still rejected by the GET probe. -/
theorem htmlRejection_spec_witness :
    tryAskGet (fun _ => true) true
      { ok := true, ct := "text/html", text := "\x7b\"boolean\": true\x7d" } = false :=
  (htmlRejection_spec "text/html" "\x7b\"boolean\": true\x7d" (fun _ => true)
    true true (by decide)).2.1

/-! ## Verified-set insertion -/

/-- Inserting an entry whose URL is already present leaves the map unchanged. -/
lemma insertVerified_of_mem_url {m : List VEndpoint} {v w : VEndpoint}
    (hv : v ∈ m) (hw : w.url = v.url) : insertVerified m w = m := by
  have : (m.any fun e => e.url == w.url) = true :=
    List.any_eq_true.2 ⟨v, hv, by simp [hw]⟩
  simp [insertVerified, this]

/-- `insertVerified` preserves URL-uniqueness of the verified map. -/
lemma insertVerified_nodup {m : List VEndpoint} (v : VEndpoint)
    (h : (m.map fun e => e.url).Nodup) :
    ((insertVerified m v).map fun e => e.url).Nodup := by
  unfold insertVerified
  split
  · exact h
  · rename_i hany
    have hnot : ∀ e ∈ m, e.url ≠ v.url := by simpa using hany
    simp only [List.map_append, List.map_cons, List.map_nil]
    rw [List.nodup_append]
    refine ⟨h, List.nodup_singleton _, ?_⟩
    intro a ha hb
    simp only [List.mem_singleton] at hb
    obtain ⟨e, he, rfl⟩ := List.mem_map.1 ha
    exact hnot e he hb

/-- C7: a record's verified map holds at most one entry per URL: an insertion
for an already-present URL is ignored (first success retained), inserting the
same `(url, source, mode)` twice yields one entry, and every completed task
(worker step) preserves URL-uniqueness of every record's map. -/
theorem verifiedSet_invariant_spec :
    (∀ (m : List VEndpoint) (v w : VEndpoint), v ∈ m → w.url = v.url →
      insertVerified m w = m)
    ∧ (∀ (m : List VEndpoint) (v : VEndpoint),
      insertVerified (insertVerified m v) v = insertVerified m v)
    ∧ (∀ v : VEndpoint, insertVerified (insertVerified [] v) v = [v])
    ∧ (∀ (tasks : List Task) (outcome : String → Option Mode)
        (vm : Nat → List VEndpoint) (j : Nat),
      (∀ i, ((vm i).map fun e => e.url).Nodup) →
      ∀ i, ((stepTask tasks outcome vm j i).map fun e => e.url).Nodup) := by
  have hidem : ∀ (m : List VEndpoint) (v : VEndpoint),
      insertVerified (insertVerified m v) v = insertVerified m v := by
    intro m v
    by_cases hany : (m.any fun e => e.url == v.url) = true
    · simp [insertVerified, hany]
    · have h1 : insertVerified m v = m ++ [v] := by
        simp [insertVerified, hany]
      rw [h1]
      exact insertVerified_of_mem_url (List.mem_append_right m (by simp)) rfl
  refine ⟨fun m v w hv hw => insertVerified_of_mem_url hv hw, hidem, ?_, ?_⟩
  · intro v
    simp [insertVerified]
  · intro tasks outcome vm j hvm i
    rcases ht : tasks[j]? with _ | t
    · simpa [stepTask, ht] using hvm i
    · rcases ho : outcome t.url with _ | mo
      · simpa [stepTask, ht, ho] using hvm i
      · simp only [stepTask, ht, ho]
        split
        · exact insertVerified_nodup _ (hvm _)
        · exact hvm i

/-- Witness for `verifiedSet_invariant_spec`: a worker step on a concrete
URL-unique map keeps it URL-unique. -/
theorem verifiedSet_invariant_spec_witness :
    ((stepTask exampleTasksE exampleOutcomeE
        (fun _ => [{ url := "u2", source := Source.guessed, mode := Mode.ask_get }]) 0 0).map
      fun e => e.url).Nodup :=
  (verifiedSet_invariant_spec).2.2.2 exampleTasksE exampleOutcomeE _ 0
    (fun i => by cases i <;> simp) 0

/-! ## Non-null chosen endpoints (both output modes) -/

/-- C10: every emitted output row carries a non-null `sparqlEndpoint`, in
derivation-only mode (rows only for records with candidates, and the selection
on a non-empty list is never null) and in verification mode (rows only for
records with a non-empty verified map). -/
theorem rowEndpoint_nonNull_spec :
    (∀ (prepared : List Prepared) (strict : Bool) (row : DeriveRow),
      row ∈ filterDerive prepared strict → row.sparqlEndpoint.isSome = true)
    ∧ (∀ (items : List Prepared) (strict : Bool) (vm : Nat → List VEndpoint)
        (row : VerifyRow),
      row ∈ assembleRows items strict vm → row.sparqlEndpoint.isSome = true) := by
  constructor
  · intro prepared strict row hrow
    rw [filterDerive, List.mem_filterMap] at hrow
    obtain ⟨p, hp, hf⟩ := hrow
    split at hf
    · cases hf
    · split at hf
      · cases hf
      · rename_i hne _
        injection hf with hf
        subst hf
        rw [Option.isSome_iff_ne_none]
        intro hnone
        have hcp : choosePreferred p.sparqlCandidates = none := by
          cases hcp : choosePreferred p.sparqlCandidates with
          | none => rfl
          | some c => rw [hcp] at hnone; cases hnone
        exact hne (by simp [(choosePreferred_eq_none_iff _).1 hcp])
  · intro items strict vm row hrow
    rw [assembleRows, List.mem_filterMap] at hrow
    obtain ⟨i, _, hf⟩ := hrow
    rw [rowFor] at hf
    split at hf
    · cases hf
    · split at hf
      · cases hf
      · split at hf
        · cases hf
        · injection hf with hf
          subst hf
          rfl

/-- Witness for `rowEndpoint_nonNull_spec`: the row the example record emits
has a non-null endpoint. -/
theorem rowEndpoint_nonNull_spec_witness :
    ∃ row, row ∈ verifyCandidatesByCandidate exampleItems false exampleOutcome [0, 1]
      ∧ row.sparqlEndpoint.isSome = true := by
  refine ⟨(verifyCandidatesByCandidate exampleItems false exampleOutcome [0, 1]).headD
    { proj := projectOutput {}, sparqlEndpoint := none, sparqlGuessed := none,
      sparqlVerified := true, sparqlVerifiedBy := Mode.ask_get,
      sparqlEndpointsVerified := [], sparqlEndpointsVerifiedMeta := [] }, ?_, ?_⟩
  · decide
  · exact (rowEndpoint_nonNull_spec).2 exampleItems false
      (runTasks (buildTasks exampleItems) exampleOutcome [0, 1]) _ (by decide)

/-! ## Strict-mode gate (verification mode) -/

/-- `explicitUrls` is empty exactly when the record has no explicit-source
candidate. -/
lemma explicitUrls_eq_nil_iff (item : Prepared) :
    explicitUrls item = [] ↔ ∀ c ∈ item.sparqlCandidates, c.source ≠ Source.explicit := by
  unfold explicitUrls
  rw [List.dedup_eq_nil, List.map_eq_nil_iff, List.filter_eq_nil_iff]
  constructor
  · intro h c hc
    have := h c hc
    simpa using this
  · intro h c hc
    simpa using h c hc

/-- C5: in verification mode with `strict`, a record contributes a row only if
its original candidate set has an explicit-source candidate, and a record all
of whose candidates are guessed never contributes a row, whatever the
verification outcomes. -/
theorem strictGate_spec :
    (∀ (items : List Prepared) (vm : Nat → List VEndpoint) (i : Nat) (row : VerifyRow),
      rowFor items true vm i = some row →
      ∃ item, items[i]? = some item ∧
        (item.sparqlCandidates.any fun c => c.source == Source.explicit) = true)
    ∧ (∀ (items : List Prepared) (vm : Nat → List VEndpoint) (i : Nat) (item : Prepared),
      items[i]? = some item →
      (∀ c ∈ item.sparqlCandidates, c.source = Source.guessed) →
      rowFor items true vm i = none) := by
  constructor
  · intro items vm i row hf
    rw [rowFor] at hf
    split at hf
    · cases hf
    · rename_i item hitem
      refine ⟨item, hitem, ?_⟩
      split at hf
      · cases hf
      · split at hf
        · cases hf
        · rename_i hcond
          rw [List.any_eq_true]
          by_contra hno
          push_neg at hno
          have hnil : explicitUrls item = [] := by
            rw [explicitUrls_eq_nil_iff]
            intro c hc heq
            exact hno c hc (by simp [heq])
          exact hcond (by simp [hasExplicitAny, hnil])
  · intro items vm i item hitem hall
    have hnil : explicitUrls item = [] := by
      rw [explicitUrls_eq_nil_iff]
      intro c hc
      rw [hall c hc]
      intro h
      cases h
    rw [rowFor, hitem]
    cases hvm : vm i with
    | nil => rfl
    | cons v vs => simp [hasExplicitAny, hnil]

/-- Witness for `strictGate_spec`: the all-guessed example record produces no
row in strict mode even though both its candidates verified. -/
theorem strictGate_spec_witness :
    rowFor exampleItems true (runTasks (buildTasks exampleItems) exampleOutcome [0, 1]) 0 = none :=
  (strictGate_spec).2 exampleItems _ 0
    { raw := {},
      sparqlCandidates :=
        [{ url := "https://a.org/sparql", source := Source.guessed },
         { url := "https://a.org/query", source := Source.guessed }] }
    (by decide) (by decide)

/-! ## Exception propagation (worker boundary) -/

/-- With never-throwing probes, one engine step agrees with the plain engine
step. -/
lemma stepTaskE_ok (tasks : List Task) (outcome : String → Option Mode)
    (vm : Nat → List VEndpoint) (j : Nat) :
    stepTaskE tasks (fun u => Except.ok (outcome u)) (Except.ok vm) j =
      Except.ok (stepTask tasks outcome vm j) := by
  rcases ht : tasks[j]? with _ | t
  · simp [stepTaskE, stepTask, ht]
  · rcases ho : outcome t.url with _ | mo <;> simp [stepTaskE, stepTask, ht, ho]

/-- An errored engine state is final: every remaining task leaves it. -/
lemma foldlE_error (tasks : List Task) (probeE : String → Except Unit (Option Mode))
    (order : List Nat) (e : Unit) :
    order.foldl (stepTaskE tasks probeE) (Except.error e) = Except.error e := by
  induction order with
  | nil => rfl
  | cons a rest ih => simpa [stepTaskE] using ih

/-- With never-throwing probes the exception-aware engine completes and agrees
with the plain engine. -/
lemma foldlE_ok (tasks : List Task) (outcome : String → Option Mode) :
    ∀ (order : List Nat) (vm : Nat → List VEndpoint),
      order.foldl (stepTaskE tasks (fun u => Except.ok (outcome u))) (Except.ok vm) =
        Except.ok (order.foldl (stepTask tasks outcome) vm) := by
  intro order
  induction order with
  | nil => intro vm; rfl
  | cons a rest ih =>
    intro vm
    rw [List.foldl_cons, List.foldl_cons, stepTaskE_ok]
    exact ih _

/-- A probe error on any scheduled task aborts the whole engine run. -/
lemma foldlE_error_of_mem (tasks : List Task)
    (probeE : String → Except Unit (Option Mode)) :
    ∀ (order : List Nat) (vm : Nat → List VEndpoint) (j : Nat) (t : Task),
      j ∈ order → tasks[j]? = some t → probeE t.url = Except.error () →
      order.foldl (stepTaskE tasks probeE) (Except.ok vm) = Except.error () := by
  intro order
  induction order with
  | nil => intro vm j t hj; cases hj
  | cons a rest ih =>
    intro vm j t hj ht hp
    rcases List.mem_cons.1 hj with rfl | hjr
    · have hstep : stepTaskE tasks probeE (Except.ok vm) j = Except.error () := by
        simp [stepTaskE, ht, hp]
      rw [List.foldl_cons, hstep, foldlE_error]
    · rw [List.foldl_cons]
      cases hstep : stepTaskE tasks probeE (Except.ok vm) a with
      | error e => cases e; rw [foldlE_error]
      | ok vm' => exact ih vm' j t hjr ht hp

/-- C8 (amended): there is no exception handler at the worker boundary.  When
every probe returns an outcome — as the implemented strategies do, since
`tryAskGet` wraps its body in `try/catch` and `fetchText` catches transport
errors — the engine completes and aggregates every task; but a probe strategy
that does throw on a scheduled task rejects the whole engine run (`Promise.all`)
instead of failing only that task. -/
theorem workerBoundary_amended :
    (∀ (tasks : List Task) (outcome : String → Option Mode) (order : List Nat),
      runTasksE tasks (fun u => Except.ok (outcome u)) order =
        Except.ok (runTasks tasks outcome order))
    ∧ (∀ (tasks : List Task) (probeE : String → Except Unit (Option Mode))
        (order : List Nat) (j : Nat) (t : Task),
      j ∈ order → tasks[j]? = some t → probeE t.url = Except.error () →
      runTasksE tasks probeE order = Except.error ()) := by
  constructor
  · intro tasks outcome order
    exact foldlE_ok tasks outcome order _
  · intro tasks probeE order j t hj ht hp
    exact foldlE_error_of_mem tasks probeE order _ j t hj ht hp

/-- Witness for `workerBoundary_amended`: the throwing example probe aborts a
one-task run. -/
theorem workerBoundary_amended_witness :
    runTasksE exampleTasksE exampleProbeE [0] = Except.error () :=
  (workerBoundary_amended).2 exampleTasksE exampleProbeE [0] 0
    { portalIndex := 0, url := "u1", source := Source.guessed }
    (by decide) (by decide) (by simp [exampleProbeE])

/-- C8 counterexample: with a probe that throws on the first task and succeeds
on the second, the engine run is rejected (no result is produced for any
task), although under the outcomes the claim expects (first failed, second
verified) the record would have had a verified endpoint. -/
theorem workerBoundary_counterexample :
    runTasksE exampleTasksE exampleProbeE [0, 1] = Except.error ()
    ∧ runTasks exampleTasksE exampleOutcomeE [0, 1] 0 =
      [{ url := "u2", source := Source.guessed, mode := Mode.ask_get }] := by
  constructor
  · rfl
  · decide

/-! ## Completion-order independence of the verified sets -/

/-- Entries already in a verified map survive any insertion. -/
lemma mem_insertVerified_of_mem {m : List VEndpoint} {v : VEndpoint}
    (w : VEndpoint) (h : v ∈ m) : v ∈ insertVerified m w := by
  unfold insertVerified
  split
  · exact h
  · exact List.mem_append_left _ h

/-- A member of a verified map after an insertion is an old entry or the
inserted one. -/
lemma mem_of_mem_insertVerified {m : List VEndpoint} {v w : VEndpoint}
    (h : v ∈ insertVerified m w) : v ∈ m ∨ v = w := by
  unfold insertVerified at h
  split at h
  · exact Or.inl h
  · rcases List.mem_append.1 h with h' | h'
    · exact Or.inl h'
    · exact Or.inr (by simpa using h')

/-- If every same-URL entry already equals `v`, then `v` is present after
inserting `v`. -/
lemma self_mem_insertVerified {m : List VEndpoint} {v : VEndpoint}
    (hinv : ∀ e ∈ m, e.url = v.url → e = v) : v ∈ insertVerified m v := by
  unfold insertVerified
  split
  · rename_i hany
    rw [List.any_eq_true] at hany
    obtain ⟨e, he, heq⟩ := hany
    have : e = v := hinv e he (by simpa using heq)
    exact this ▸ he
  · exact List.mem_append_right _ (by simp)

/-- A worker step never removes an entry from any record's verified map. -/
lemma mem_stepTask_of_mem (tasks : List Task) (outcome : String → Option Mode)
    (vm : Nat → List VEndpoint) (j i : Nat) (v : VEndpoint) (h : v ∈ vm i) :
    v ∈ stepTask tasks outcome vm j i := by
  rcases ht : tasks[j]? with _ | t
  · simpa [stepTask, ht] using h
  · rcases ho : outcome t.url with _ | mo
    · simpa [stepTask, ht, ho] using h
    · simp only [stepTask, ht, ho]
      split
      · exact mem_insertVerified_of_mem _ h
      · exact h

/-- Entries persist through any sequence of completed tasks. -/
lemma mem_foldl_stepTask_of_mem (tasks : List Task) (outcome : String → Option Mode) :
    ∀ (o : List Nat) (vm : Nat → List VEndpoint) (i : Nat) (v : VEndpoint),
      v ∈ vm i → v ∈ (o.foldl (stepTask tasks outcome) vm) i := by
  intro o
  induction o with
  | nil => intro vm i v h; exact h
  | cons a rest ih =>
    intro vm i v h
    rw [List.foldl_cons]
    exact ih _ i v (mem_stepTask_of_mem tasks outcome vm a i v h)

/-- Every entry of a final verified map is an initial entry or was produced by
some completed task with a successful outcome. -/
lemma mem_foldl_stepTask (tasks : List Task) (outcome : String → Option Mode) :
    ∀ (o : List Nat) (vm : Nat → List VEndpoint) (i : Nat) (v : VEndpoint),
      v ∈ (o.foldl (stepTask tasks outcome) vm) i →
      v ∈ vm i ∨ ∃ j ∈ o, ∃ t, tasks[j]? = some t ∧ t.portalIndex = i ∧
        t.url = v.url ∧ t.source = v.source ∧ outcome t.url = some v.mode := by
  intro o
  induction o with
  | nil => intro vm i v h; exact Or.inl h
  | cons a rest ih =>
    intro vm i v h
    rw [List.foldl_cons] at h
    rcases ih _ i v h with h' | ⟨j, hj, hy⟩
    · rcases ht : tasks[a]? with _ | t
      · rw [stepTask] at h'
        rw [ht] at h'
        exact Or.inl h'
      · rcases ho : outcome t.url with _ | mo
        · simp only [stepTask, ht, ho] at h'
          exact Or.inl h'
        · simp only [stepTask, ht, ho] at h'
          by_cases hip : i = t.portalIndex
          · rw [if_pos hip] at h'
            rcases mem_of_mem_insertVerified h' with hm | rfl
            · exact Or.inl hm
            · exact Or.inr ⟨a, List.mem_cons_self a rest, t, ht, hip.symm, rfl, rfl, ho⟩
          · rw [if_neg hip] at h'
            exact Or.inl h'
    · exact Or.inr ⟨j, List.mem_cons_of_mem _ hj, hy⟩

/-- Conversely: a scheduled task with a successful outcome contributes its
entry, provided no other scheduled task shares its (record, URL) key and the
initial map has no conflicting same-URL entry. -/
lemma mem_foldl_stepTask_of_task (tasks : List Task) (outcome : String → Option Mode) :
    ∀ (o : List Nat) (vm : Nat → List VEndpoint) (j : Nat) (t : Task) (mo : Mode),
      o.Nodup → j ∈ o → tasks[j]? = some t → outcome t.url = some mo →
      (∀ k ∈ o, ∀ tk, tasks[k]? = some tk → tk.portalIndex = t.portalIndex →
        tk.url = t.url → k = j) →
      (∀ e ∈ vm t.portalIndex, e.url = t.url →
        e = { url := t.url, source := t.source, mode := mo }) →
      ({ url := t.url, source := t.source, mode := mo } : VEndpoint) ∈
        (o.foldl (stepTask tasks outcome) vm) t.portalIndex := by
  intro o
  induction o with
  | nil => intro vm j t mo _ hj; cases hj
  | cons a rest ih =>
    intro vm j t mo hnd hj ht ho huniq hinv
    rw [List.foldl_cons]
    rcases List.mem_cons.1 hj with rfl | hjr
    · have hstep : ({ url := t.url, source := t.source, mode := mo } : VEndpoint) ∈
          stepTask tasks outcome vm j t.portalIndex := by
        simp only [stepTask, ht, ho, if_pos rfl]
        exact self_mem_insertVerified hinv
      exact mem_foldl_stepTask_of_mem tasks outcome rest _ _ _ hstep
    · have hne : a ≠ j := by
        rintro rfl
        exact (List.nodup_cons.1 hnd).1 hjr
      apply ih (stepTask tasks outcome vm a) j t mo (List.nodup_cons.1 hnd).2 hjr ht ho
      · intro k hk tk htk hpi hurl
        exact huniq k (List.mem_cons_of_mem _ hk) tk htk hpi hurl
      · intro e he heq
        rcases hta : tasks[a]? with _ | ta
        · rw [stepTask, hta] at he
          exact hinv e he heq
        · rcases hoa : outcome ta.url with _ | moa
          · simp only [stepTask, hta, hoa] at he
            exact hinv e he heq
          · simp only [stepTask, hta, hoa] at he
            by_cases hip : t.portalIndex = ta.portalIndex
            · rw [if_pos hip] at he
              rcases mem_of_mem_insertVerified he with hm | rfl
              · exact hinv e hm heq
              · exact absurd (huniq a (List.mem_cons_self a rest) ta hta hip.symm heq) hne
            · rw [if_neg hip] at he
              exact hinv e he heq

/-- Per-record URL-uniqueness of the task list pins down the task index of any
(record, URL) pair. -/
lemma pairwise_tasks_index (tasks : List Task)
    (huniq : List.Pairwise
      (fun a b => ¬(a.portalIndex = b.portalIndex ∧ a.url = b.url)) tasks) :
    ∀ (j k : Nat) (tj tk : Task), tasks[j]? = some tj → tasks[k]? = some tk →
      tj.portalIndex = tk.portalIndex → tj.url = tk.url → j = k := by
  intro j k tj tk hj hk hpi hurl
  obtain ⟨hjl, hje⟩ := List.getElem?_eq_some.1 hj
  obtain ⟨hkl, hke⟩ := List.getElem?_eq_some.1 hk
  rcases Nat.lt_trichotomy j k with hlt | heq | hgt
  · exact absurd ⟨hje ▸ hke ▸ hpi, hje ▸ hke ▸ hurl⟩
      (List.pairwise_iff_getElem.1 huniq j k hjl hkl hlt)
  · exact heq
  · exact absurd ⟨hke ▸ hje ▸ hpi.symm, hke ▸ hje ▸ hurl.symm⟩
      (List.pairwise_iff_getElem.1 huniq k j hkl hjl hgt)

/-- Membership in a record's final verified map depends only on the tasks and
outcomes, not on the completion order, for any full run over a task list with
per-record-unique URLs. -/
lemma runTasks_mem_iff (tasks : List Task) (outcome : String → Option Mode)
    (o : List Nat) (ho : o.Perm (List.range tasks.length))
    (huniq : List.Pairwise
      (fun a b => ¬(a.portalIndex = b.portalIndex ∧ a.url = b.url)) tasks)
    (i : Nat) (v : VEndpoint) :
    v ∈ runTasks tasks outcome o i ↔
      ∃ (j : Nat) (t : Task), tasks[j]? = some t ∧ t.portalIndex = i ∧ t.url = v.url ∧
        t.source = v.source ∧ outcome t.url = some v.mode := by
  constructor
  · intro h
    rcases mem_foldl_stepTask tasks outcome o _ i v h with h' | ⟨j, _, t, hy⟩
    · cases h'
    · exact ⟨j, t, hy⟩
  · rintro ⟨j, t, ht, hpi, hurl, hsrc, hout⟩
    have hv : v = { url := t.url, source := t.source, mode := v.mode } := by
      cases v
      simp_all
    have hjlen : j < tasks.length := (List.getElem?_eq_some.1 ht).1
    have hjo : j ∈ o := ho.mem_iff.2 (List.mem_range.2 hjlen)
    have hnd : o.Nodup := ho.nodup_iff.2 (List.nodup_range _)
    subst hpi
    rw [hv]
    apply mem_foldl_stepTask_of_task tasks outcome o _ j t v.mode hnd hjo ht hout
    · intro k _ tk htk hpi' hurl'
      exact pairwise_tasks_index tasks huniq k j tk t htk ht hpi' hurl'
    · intro e he
      cases he

/-- C1 (amended): for a fixed assignment of probe outcomes to URLs and a task
list whose (record, URL) keys are unique — as `uniqueCandidates` guarantees
per record — any two completion orderings of the full task list produce the
same per-record verified sets.  (The *chosen* endpoints may still differ; see
the counterexample.) -/
theorem engineOrder_amended (tasks : List Task) (outcome : String → Option Mode)
    (o₁ o₂ : List Nat)
    (h1 : o₁.Perm (List.range tasks.length))
    (h2 : o₂.Perm (List.range tasks.length))
    (huniq : List.Pairwise
      (fun a b => ¬(a.portalIndex = b.portalIndex ∧ a.url = b.url)) tasks)
    (i : Nat) (v : VEndpoint) :
    v ∈ runTasks tasks outcome o₁ i ↔ v ∈ runTasks tasks outcome o₂ i := by
  rw [runTasks_mem_iff tasks outcome o₁ h1 huniq i v,
    runTasks_mem_iff tasks outcome o₂ h2 huniq i v]

/-- Witness for `engineOrder_amended`: the entry for the first example URL is
in the verified set under both completion orders. -/
theorem engineOrder_amended_witness :
    ({ url := "https://a.org/sparql", source := Source.guessed,
       mode := Mode.ask_get } : VEndpoint) ∈
        runTasks (buildTasks exampleItems) exampleOutcome [0, 1] 0 ↔
    ({ url := "https://a.org/sparql", source := Source.guessed,
       mode := Mode.ask_get } : VEndpoint) ∈
        runTasks (buildTasks exampleItems) exampleOutcome [1, 0] 0 :=
  engineOrder_amended (buildTasks exampleItems) exampleOutcome [0, 1] [1, 0]
    (by decide) (by decide) (by decide) 0 _

/-- C1 counterexample: with fixed probe outcomes (both candidates of the
example record verify), the two completion orderings `[0, 1]` and `[1, 0]` —
both full runs of the task list — yield different chosen endpoints in the
resulting rows, refuting the claim that the chosen endpoints are identical
across completion orderings. -/
theorem engineOrder_counterexample :
    [0, 1].Perm (List.range (buildTasks exampleItems).length)
    ∧ [1, 0].Perm (List.range (buildTasks exampleItems).length)
    ∧ (verifyCandidatesByCandidate exampleItems false exampleOutcome [0, 1]).map
        (fun r => r.sparqlEndpoint)
      ≠ (verifyCandidatesByCandidate exampleItems false exampleOutcome [1, 0]).map
        (fun r => r.sparqlEndpoint) := by
  refine ⟨by decide, by decide, by decide⟩

/-! ## Worker pool: every task is claimed exactly once -/

/-- A list element can be split out around its index, together with the result
of updating that index. -/
lemma exists_set_decomp (a : WorkerState) :
    ∀ (l : List WorkerState) (w : Nat) (ws : WorkerState), l[w]? = some ws →
      ∃ p q, l = p ++ ws :: q ∧ l.set w a = p ++ a :: q := by
  intro l
  induction l with
  | nil => intro w ws h; cases h
  | cons x xs ih =>
    intro w ws h
    cases w with
    | zero =>
      have h' : x = ws := by simpa using h
      exact ⟨[], xs, by simp [h'], by simp [List.set_cons_zero]⟩
    | succ w' =>
      obtain ⟨p, q, hl, hset⟩ := ih w' ws (by simpa using h)
      exact ⟨x :: p, q, by rw [List.cons_append, ← hl],
        by rw [List.set_cons_succ, hset, List.cons_append]⟩

/-- The initial pool has no claims. -/
lemma allClaims_initPool (k : Nat) : allClaims (initPool k) = [] := by
  induction k with
  | zero => rfl
  | succ k' ih =>
    simp only [allClaims, initPool, List.replicate_succ, List.map_cons,
      List.flatten_cons] at ih ⊢
    simp [ih]

/-- Moving a singleton from the middle to the back is a permutation. -/
lemma perm_middle_concat (L M : List Nat) (c : Nat) :
    (L ++ [c] ++ M).Perm ((L ++ M) ++ [c]) := by
  rw [List.append_assoc L [c] M, List.append_assoc L M [c]]
  exact List.Perm.append_left L List.perm_append_comm

/-- The pool invariant is established initially. -/
lemma PoolInv_init (n k : Nat) : PoolInv n k (initPool k) := by
  refine ⟨by simp [initPool], ?_, ?_, ?_⟩
  · rw [allClaims_initPool]; exact List.nodup_nil
  · intro i
    rw [allClaims_initPool]
    simp [initPool]
  · intro ws hws hrun
    rw [initPool] at hws
    simp only [List.mem_replicate] at hws
    rw [hws.2] at hrun
    cases hrun

/-- The pool invariant is preserved by every claim step. -/
lemma PoolInv_step (n k : Nat) (s : PoolState) (w : Nat) (h : PoolInv n k s) :
    PoolInv n k (stepWorker n s w) := by
  obtain ⟨hlen, hnd, hmem, hdone⟩ := h
  rcases hw : s.workers[w]? with _ | ws
  · simpa [stepWorker, hw] using ⟨hlen, hnd, hmem, hdone⟩
  · rcases hr : ws.running with _ | _
    · simpa [stepWorker, hw, hr] using ⟨hlen, hnd, hmem, hdone⟩
    · by_cases hcur : n ≤ s.cursor
      · -- the worker observes an exhausted queue and stops
        obtain ⟨p, q, hl, hset⟩ := exists_set_decomp { ws with running := false } s.workers w ws hw
        have hstep : stepWorker n s w =
            { cursor := s.cursor + 1, workers := p ++ { ws with running := false } :: q } := by
          simp [stepWorker, hw, hr, hcur, hset]
        have hclaims : allClaims (stepWorker n s w) = allClaims s := by
          rw [hstep, allClaims, allClaims, hl]
          simp
        have hmin : min (s.cursor + 1) n = min s.cursor n := by
          rw [Nat.min_eq_right hcur, Nat.min_eq_right (Nat.le_succ_of_le hcur)]
        refine ⟨?_, by rw [hclaims]; exact hnd, ?_, ?_⟩
        · rw [hstep]
          simpa using by rw [hl] at hlen; simpa using hlen
        · intro i
          rw [hclaims, hstep]
          simpa [hmin] using hmem i
        · intro ws' hws' _
          rw [hstep]
          exact Nat.le_succ_of_le hcur
      · -- the worker claims index `cursor`
        obtain ⟨p, q, hl, hset⟩ := exists_set_decomp
          { ws with claimed := ws.claimed ++ [s.cursor] } s.workers w ws hw
        rw [hr] at hset
        have hstep : stepWorker n s w =
            { cursor := s.cursor + 1,
              workers := p ++ { claimed := ws.claimed ++ [s.cursor], running := true } :: q } := by
          simp [stepWorker, hw, hr, hcur, hset]
        have hperm : (allClaims (stepWorker n s w)).Perm (allClaims s ++ [s.cursor]) := by
          rw [hstep, allClaims, allClaims, hl]
          simp only [List.map_append, List.map_cons, List.flatten_append, List.flatten_cons]
          have h := perm_middle_concat
            ((p.map fun x => x.claimed).flatten ++ ws.claimed)
            ((q.map fun x => x.claimed).flatten) s.cursor
          simpa [List.append_assoc] using h
        have hlt : s.cursor < n := Nat.lt_of_not_le hcur
        have hmin : min s.cursor n = s.cursor := Nat.min_eq_left (Nat.le_of_lt hlt)
        have hmin' : min (s.cursor + 1) n = s.cursor + 1 := Nat.min_eq_left hlt
        have hnotmem : s.cursor ∉ allClaims s := by
          intro hc
          have := (hmem s.cursor).1 hc
          rw [hmin] at this
          exact Nat.lt_irrefl _ this
        refine ⟨?_, ?_, ?_, ?_⟩
        · rw [hstep]
          simpa using by rw [hl] at hlen; simpa using hlen
        · rw [hperm.nodup_iff]
          rw [List.nodup_append]
          exact ⟨hnd, List.nodup_singleton _, by
            intro a ha hb
            simp only [List.mem_singleton] at hb
            exact hnotmem (hb ▸ ha)⟩
        · intro i
          rw [hperm.mem_iff, List.mem_append, List.mem_singleton]
          rw [hstep]
          simp only
          rw [hmin', hmem i, hmin, Nat.lt_succ_iff_lt_or_eq]
        · intro ws' hws' hrun'
          rw [hstep] at hws' ⊢
          simp only at hws'
          rcases List.mem_append.1 hws' with hin | hin
          · have : ws' ∈ s.workers := by rw [hl]; exact List.mem_append_left _ hin
            exact Nat.le_succ_of_le (hdone ws' this hrun')
          · rcases List.mem_cons.1 hin with rfl | hin'
            · simp at hrun'
            · have : ws' ∈ s.workers := by
                rw [hl]
                exact List.mem_append_right _ (List.mem_cons_of_mem _ hin')
              exact Nat.le_succ_of_le (hdone ws' this hrun')

/-- The pool invariant holds after any schedule. -/
lemma PoolInv_runPool (n k : Nat) (sched : List Nat) :
    PoolInv n k (runPool n k sched) := by
  rw [runPool]
  have : ∀ (l : List Nat) (s : PoolState), PoolInv n k s →
      PoolInv n k (l.foldl (stepWorker n) s) := by
    intro l
    induction l with
    | nil => intro s hs; exact hs
    | cons a rest ih =>
      intro s hs
      exact ih _ (PoolInv_step n k s a hs)
  exact this sched _ (PoolInv_init n k)

/-- C9: in every completed execution of the pool of `max 1 concurrency`
workers interleaving at suspension points (every schedule after which all
workers have stopped), the claimed task indices collected across the workers
are exactly `0, …, n-1`, each claimed by exactly one worker: no task is
claimed twice and none is skipped. -/
theorem workerPool_spec (n conc : Nat) (sched : List Nat)
    (hdone : allDone (runPool n (max 1 conc) sched)) :
    (allClaims (runPool n (max 1 conc) sched)).Nodup
    ∧ ∀ i, i ∈ allClaims (runPool n (max 1 conc) sched) ↔ i < n := by
  obtain ⟨hlen, hnd, hmem, hstop⟩ := PoolInv_runPool n (max 1 conc) sched
  have hpos : 0 < (runPool n (max 1 conc) sched).workers.length := by
    rw [hlen]
    exact Nat.lt_of_lt_of_le Nat.zero_lt_one (Nat.le_max_left 1 conc)
  obtain ⟨ws, hws⟩ := List.exists_mem_of_length_pos hpos
  have hcur : n ≤ (runPool n (max 1 conc) sched).cursor := hstop ws hws (hdone ws hws)
  refine ⟨hnd, ?_⟩
  intro i
  rw [hmem i, Nat.min_eq_right hcur]

/-- Witness for `workerPool_spec`: a concrete complete two-worker schedule
over three tasks claims exactly the indices below 3, without duplicates. -/
theorem workerPool_spec_witness :
    (allClaims (runPool 3 (max 1 2) [0, 1, 0, 1, 0, 1, 0, 1])).Nodup
    ∧ ∀ i, i ∈ allClaims (runPool 3 (max 1 2) [0, 1, 0, 1, 0, 1, 0, 1]) ↔ i < 3 :=
  workerPool_spec 3 2 [0, 1, 0, 1, 0, 1, 0, 1] (by decide)

/-! ## The XML ASK-acknowledgment regex -/

/-- `matchLit` matches exactly when the pattern is a leading segment. -/
lemma matchLit_eq_some : ∀ (pat l r : List Char), matchLit pat l = some r ↔ l = pat ++ r := by
  intro pat
  induction pat with
  | nil => intro l r; simp [matchLit, eq_comm]
  | cons c cs ih =>
    intro l r
    cases l with
    | nil => simp [matchLit]
    | cons d ds =>
      by_cases hcd : c = d
      · subst hcd
        simp only [matchLit, if_pos rfl, List.cons_append, List.cons.injEq, true_and]
        exact ih ds r
      · rw [show matchLit (c :: cs) (d :: ds) = none from by simp [matchLit, hcd]]
        simp only [List.cons_append]
        constructor
        · intro h; cases h
        · intro h
          injection h with h1 _
          exact (hcd h1.symm).elim

/-- The remainders produced by `remaindersAfter` are exactly the suffixes
following an occurrence of the (non-empty) pattern. -/
lemma mem_remaindersAfter (pat : List Char) (hpat : pat ≠ []) :
    ∀ (l r : List Char), r ∈ remaindersAfter pat l ↔ ∃ pre, l = pre ++ pat ++ r := by
  intro l
  induction l with
  | nil =>
    intro r
    have hm : matchLit pat [] = none := by
      cases pat with
      | nil => exact absurd rfl hpat
      | cons c cs => rfl
    rw [remaindersAfter, hm]
    simp only [List.not_mem_nil, false_iff]
    rintro ⟨pre, hpre⟩
    rcases List.append_eq_nil.1 (List.append_eq_nil.1 hpre.symm).1 with ⟨-, h2⟩
    exact hpat h2
  | cons c rest ih =>
    intro r
    rw [remaindersAfter]
    cases hm : matchLit pat (c :: rest) with
    | none =>
      rw [List.nil_append, ih r]
      constructor
      · rintro ⟨pre, hpre⟩
        exact ⟨c :: pre, by rw [List.cons_append, List.cons_append, ← hpre]⟩
      · rintro ⟨pre, hpre⟩
        cases pre with
        | nil =>
          rw [List.nil_append] at hpre
          rw [(matchLit_eq_some pat (c :: rest) r).2 hpre] at hm
          cases hm
        | cons p ps =>
          injection hpre with _ h2
          exact ⟨ps, h2⟩
    | some r' =>
      rw [List.cons_append, List.nil_append, List.mem_cons, ih r]
      have hm' : c :: rest = pat ++ r' := (matchLit_eq_some pat (c :: rest) r').1 hm
      constructor
      · rintro (rfl | ⟨pre, hpre⟩)
        · exact ⟨[], by rw [List.nil_append, hm']⟩
        · exact ⟨c :: pre, by rw [List.cons_append, List.cons_append, ← hpre]⟩
      · rintro ⟨pre, hpre⟩
        cases pre with
        | nil =>
          rw [List.nil_append] at hpre
          left
          have := (matchLit_eq_some pat (c :: rest) r).2 hpre
          rw [hm] at this
          injection this with this
          exact this.symm
        | cons p ps =>
          injection hpre with _ h2
          exact Or.inr ⟨ps, h2⟩

/-- `matchAttrs` consumes exactly a `>`-free segment followed by the first
`>`. -/
lemma matchAttrs_eq_some : ∀ (l q : List Char), matchAttrs l = some q ↔
    ∃ attrs, l = attrs ++ '>' :: q ∧ ∀ c ∈ attrs, c ≠ '>' := by
  intro l
  induction l with
  | nil =>
    intro q
    rw [matchAttrs]
    simp only [false_iff, reduceCtorEq]
    rintro ⟨attrs, heq, -⟩
    cases attrs <;> cases heq
  | cons c cs ih =>
    intro q
    rw [matchAttrs]
    by_cases hc : c = '>'
    · rw [if_pos hc]
      subst hc
      constructor
      · intro h
        injection h with h
        exact ⟨[], by rw [List.nil_append, h], by simp⟩
      · rintro ⟨attrs, heq, hfree⟩
        cases attrs with
        | nil =>
          injection heq with _ h2
          rw [h2]
        | cons a as =>
          injection heq with h1 _
          exact (hfree a (List.mem_cons_self a as) h1.symm).elim
    · rw [if_neg hc, ih q]
      constructor
      · rintro ⟨attrs, heq, hfree⟩
        refine ⟨c :: attrs, by rw [List.cons_append, heq], ?_⟩
        intro x hx
        rcases List.mem_cons.1 hx with rfl | hx'
        · exact hc
        · exact hfree x hx'
      · rintro ⟨attrs, heq, hfree⟩
        cases attrs with
        | nil =>
          injection heq with h1 _
          exact (hc h1).elim
        | cons a as =>
          injection heq with h1 h2
          subst h1
          exact ⟨as, h2, fun x hx => hfree x (List.mem_cons_of_mem _ hx)⟩

/-- The literal ASK acknowledgment pattern splits into its three parts. -/
lemma boolPat_true_split :
    "<boolean>true</boolean>".toList =
      "<boolean>".toList ++ "true".toList ++ "</boolean>".toList := by decide

/-- The literal negative-ASK acknowledgment pattern splits likewise. -/
lemma boolPat_false_split :
    "<boolean>false</boolean>".toList =
      "<boolean>".toList ++ "false".toList ++ "</boolean>".toList := by decide

/-- C4: `looksLikeXmlAsk` accepts exactly the bodies whose first 200000
characters (case-insensitively) contain a
`<sparql[\b][^>]*> … <boolean>true|false</boolean> … </sparql>`-shaped
decomposition; and a successful GET response with content-type
`application/sparql-results+xml` and such a body makes the probe succeed with
mode `ask_get`. -/
theorem xmlAsk_spec :
    (∀ text : String,
      looksLikeXmlAsk text = true ↔
        XmlAskShaped ((text.toList.take 200000).map Char.toLower))
    ∧ (∀ (looksLikeJsonAsk : String → Bool) (p s : FetchRes),
      validateSparqlEndpoint looksLikeJsonAsk true
        { ok := true, ct := "application/sparql-results+xml",
          text := "<sparql><results><boolean>true</boolean></results></sparql>" } p s =
        { ok := true, mode := some Mode.ask_get }) := by
  constructor
  · intro text
    simp only [looksLikeXmlAsk, List.any_eq_true]
    constructor
    · rintro ⟨r, hr, hcond⟩
      rw [Bool.and_eq_true] at hcond
      obtain ⟨hb, hrest⟩ := hcond
      obtain ⟨pre, hpre⟩ := (mem_remaindersAfter _ (by decide) _ _).1 hr
      cases hq : matchAttrs r with
      | none =>
        simp only [hq] at hrest
        cases hrest
      | some q =>
        simp only [hq] at hrest
        obtain ⟨attrs, hattrs, hfree⟩ := (matchAttrs_eq_some _ _).1 hq
        have hbound : ∀ c, attrs.head? = some c → wordChar c = false := by
          intro c hc
          cases attrs with
          | nil => cases hc
          | cons a as =>
            injection hc with hc
            subst hc
            rw [hattrs, List.cons_append] at hb
            simpa [boundaryOk] using hb
        rw [Bool.or_eq_true] at hrest
        rcases hrest with hrest | hrest <;> rw [List.any_eq_true] at hrest
        · obtain ⟨sfx, hsfx, hclose⟩ := hrest
          obtain ⟨mid1, hmid1⟩ := (mem_remaindersAfter _ (by decide) _ _).1 hsfx
          obtain ⟨mid2, post, hmp⟩ := of_decide_eq_true hclose
          refine ⟨pre, attrs, mid1, "true".toList, mid2, post, ?_, hfree, Or.inl rfl, hbound⟩
          rw [hpre, hattrs, hmid1, ← hmp, boolPat_true_split]
          simp [List.append_assoc]
        · obtain ⟨sfx, hsfx, hclose⟩ := hrest
          obtain ⟨mid1, hmid1⟩ := (mem_remaindersAfter _ (by decide) _ _).1 hsfx
          obtain ⟨mid2, post, hmp⟩ := of_decide_eq_true hclose
          refine ⟨pre, attrs, mid1, "false".toList, mid2, post, ?_, hfree, Or.inr rfl, hbound⟩
          rw [hpre, hattrs, hmid1, ← hmp, boolPat_false_split]
          simp [List.append_assoc]
    · rintro ⟨pre, attrs, mid1, b, mid2, post, heq, hfree, hb, hbound⟩
      refine ⟨attrs ++ '>' :: (mid1 ++ "<boolean>".toList ++ b ++ "</boolean>".toList ++
        mid2 ++ "</sparql>".toList ++ post), ?_, ?_⟩
      · refine (mem_remaindersAfter _ (by decide) _ _).2 ⟨pre, ?_⟩
        rw [heq]
        simp [List.append_assoc]
      · rw [Bool.and_eq_true]
        constructor
        · cases attrs with
          | nil => rfl
          | cons a as =>
            have hw : wordChar a = false := hbound a rfl
            rw [List.cons_append]
            simp [boundaryOk, hw]
        · have hq : matchAttrs (attrs ++ '>' :: (mid1 ++ "<boolean>".toList ++ b ++
              "</boolean>".toList ++ mid2 ++ "</sparql>".toList ++ post)) =
              some (mid1 ++ "<boolean>".toList ++ b ++ "</boolean>".toList ++
                mid2 ++ "</sparql>".toList ++ post) :=
            (matchAttrs_eq_some _ _).2 ⟨attrs, rfl, hfree⟩
          simp only [hq]
          rw [Bool.or_eq_true]
          rcases hb with rfl | rfl
          · left
            rw [List.any_eq_true]
            refine ⟨mid2 ++ "</sparql>".toList ++ post, ?_, ?_⟩
            · refine (mem_remaindersAfter _ (by decide) _ _).2 ⟨mid1, ?_⟩
              rw [boolPat_true_split]
              simp [List.append_assoc]
            · exact decide_eq_true ⟨mid2, post, rfl⟩
          · right
            rw [List.any_eq_true]
            refine ⟨mid2 ++ "</sparql>".toList ++ post, ?_, ?_⟩
            · refine (mem_remaindersAfter _ (by decide) _ _).2 ⟨mid1, ?_⟩
              rw [boolPat_false_split]
              simp [List.append_assoc]
            · exact decide_eq_true ⟨mid2, post, rfl⟩
  · intro looksLikeJsonAsk p s
    have hget : tryAskGet looksLikeJsonAsk true
        { ok := true, ct := "application/sparql-results+xml",
          text := "<sparql><results><boolean>true</boolean></results></sparql>" } = true := by
      rfl
    simp [validateSparqlEndpoint, hget]

/-- Witness for `xmlAsk_spec` at the concrete end-to-end body: the classifier
accepts it, via the right-to-left direction of the equivalence at an explicit
decomposition. -/
theorem xmlAsk_spec_witness :
    looksLikeXmlAsk "<sparql><results><boolean>true</boolean></results></sparql>" = true :=
  ((xmlAsk_spec).1 "<sparql><results><boolean>true</boolean></results></sparql>").2
    ⟨[], [], "<results>".toList, "true".toList, "</results>".toList, [],
      by decide, by decide, Or.inl rfl, by decide⟩

end Sodpest
